import Mathlib

/-!
Verification development for the finite-difference Hessian engine
(src/stan/math/rev/mat/functor/finite_diff_hessian_AD.hpp) and the
moment-initialization loop of gaussian_dlm_log
(src/stan/prob/distributions/multivariate/continuous/gaussian_dlm.hpp).

Reals (C++ double) are modelled as rationals, so all arithmetic is exact.
Vectors are lists of rationals, matrices are lists of columns (the engine
writes the Hessian column by column).  The mutation of the working copy
x_temp is modelled by explicit state passing: an EngineState carries the
vector x of the caller (a const reference, never written by the source)
together with the private working copy x_temp.  Each loop iteration is one
hessStep; the points handed to the gradient oracle are recorded in a trace.
-/

/-- State of the engine inside the loop: the vector x of the caller
(passed by const reference and only ever read) and the private working
copy x_temp (initialized at line 46 as a copy of x and mutated in place). -/
structure EngineState where
  x : List ℚ
  xtemp : List ℚ
  deriving DecidableEq

/-- Result of one loop iteration: the Hessian column written by the
iteration, the engine state after it, and the points handed to the
gradient oracle, in call order. -/
structure StepOut where
  col : List ℚ
  st : EngineState
  queries : List (List ℚ)
  deriving DecidableEq

/-- One iteration of the loop at lines 51-73 for dimension i, translated
statement by statement.  The gradient oracle grad returns a pair
(value, gradient); the value component is the dummy_fx_eval of the source
and is discarded.  The initialization g_diff = VectorXd::Zero(d) at line 52
is immediately overwritten by the Eigen assignment g_diff = -g_auto (which
resizes), so it leaves no trace in the result.  Eigen componentwise
compound assignments become zipWith, componentwise scaling and division
become map. -/
def hessStep (grad : List ℚ → ℚ × List ℚ) (ε : ℚ) (i : ℕ)
    (s : EngineState) : StepOut :=
  let xt1 := s.xtemp.set i (s.xtemp.getD i 0 + 2 * ε)
  let g1 := (grad xt1).2
  let gd1 := g1.map (fun a => -a)
  let xt2 := xt1.set i (s.x.getD i 0 + (-2) * ε)
  let g2 := (grad xt2).2
  let gd2 := List.zipWith (fun a b => a + b) gd1 g2
  let xt3 := xt2.set i (s.x.getD i 0 + ε)
  let g3 := (grad xt3).2
  let gd3 := List.zipWith (fun a b => a + b) gd2 (g3.map (fun a => 8 * a))
  let xt4 := xt3.set i (s.x.getD i 0 - ε)
  let g4 := (grad xt4).2
  let gd4 := List.zipWith (fun a b => a - b) gd3 (g4.map (fun a => 8 * a))
  let xt5 := xt4.set i (s.x.getD i 0)
  ⟨gd4.map (fun a => a / (12 * ε)), ⟨s.x, xt5⟩, [xt1, xt2, xt3, xt4]⟩

/-- Result of running the loop over a list of dimensions: the Hessian
columns in order, the final engine state, and the concatenated oracle
query trace. -/
structure RunOut where
  cols : List (List ℚ)
  st : EngineState
  queries : List (List ℚ)
  deriving DecidableEq

/-- The loop at lines 51-73, iterated over an explicit list of dimension
indices, threading the engine state. -/
def hessRun (grad : List ℚ → ℚ × List ℚ) (ε : ℚ) :
    List ℕ → EngineState → RunOut
  | [], s => ⟨[], s, []⟩
  | i :: is, s =>
    let o := hessStep grad ε i s
    let r := hessRun grad ε is o.st
    ⟨o.col :: r.cols, r.st, o.queries ++ r.queries⟩

/-- The whole call body with its trace: d = x.size(), the working copy is
initialized as a copy of x, and the loop runs over i = 0, ..., d-1. -/
def finite_diff_hessian_AD_run (grad : List ℚ → ℚ × List ℚ)
    (x : List ℚ) (ε : ℚ) : RunOut :=
  hessRun grad ε (List.range x.length) ⟨x, x⟩

/-- Shallow embedding of finite_diff_hessian_AD (lines 32-75).  The out
parameter hess_fx is resized to d x d and every column is then assigned,
so its prior contents hess0 do not influence the result; fx is assigned
f(x) at line 74, after the loop, reading the vector of the caller. -/
def finite_diff_hessian_AD (f : List ℚ → ℚ) (grad : List ℚ → ℚ × List ℚ)
    (x : List ℚ) (ε : ℚ) (hess0 : List (List ℚ)) : ℚ × List (List ℚ) :=
  let _ := hess0
  let r := finite_diff_hessian_AD_run grad x ε
  (f r.st.x, r.cols)

/-- Default perturbation size of the source, epsilon = 1e-03. -/
def defaultEpsilon : ℚ := 1 / 1000

/-- getD at an index inside the list is the element there. -/
theorem getD_of_lt {α : Type} (l : List α) (i : ℕ) (d : α)
    (hi : i < l.length) : l.getD i d = l[i] := by
  simp [List.getD_eq_getElem?_getD, List.getElem?_eq_getElem hi]

/-- Writing back the element already at an index changes nothing. -/
theorem set_getD_self {α : Type} (l : List α) (i : ℕ) (d : α)
    (hi : i < l.length) : l.set i (l.getD i d) = l := by
  apply List.ext_getElem (by simp)
  intro j h1 h2
  rw [List.getElem_set]
  by_cases h : i = j
  · subst h
    simp [List.getElem?_eq_getElem hi]
  · simp [h]

/-- One iteration only rewrites position i of the working copy and ends by
storing x(i) there; the vector of the caller is untouched. -/
theorem hessStep_st (grad : List ℚ → ℚ × List ℚ) (ε : ℚ) (i : ℕ)
    (s : EngineState) :
    (hessStep grad ε i s).st = ⟨s.x, s.xtemp.set i (s.x.getD i 0)⟩ := by
  simp [hessStep, List.set_set]

/-- From the synchronized state (x, x), an iteration on a valid dimension
restores the working copy to x exactly. -/
theorem hessStep_st_fixed (grad : List ℚ → ℚ × List ℚ) (ε : ℚ) (x : List ℚ)
    (i : ℕ) (hi : i < x.length) :
    (hessStep grad ε i ⟨x, x⟩).st = ⟨x, x⟩ := by
  rw [hessStep_st, set_getD_self x i 0 hi]

/-- The loop never writes the vector of the caller, whatever the starting
state. -/
theorem hessRun_x (grad : List ℚ → ℚ × List ℚ) (ε : ℚ) (is : List ℕ) :
    ∀ s : EngineState, (hessRun grad ε is s).st.x = s.x := by
  induction is with
  | nil => intro s; rfl
  | cons i is ih =>
    intro s
    simp only [hessRun]
    rw [ih]
    rw [hessStep_st]

/-- Claim C6: the engine leaves the input point of the caller unchanged:
every perturbation is written to the private working copy x_temp, so after
the call the vector x of the caller is exactly what it was before. -/
theorem fdh_caller_point_unchanged (grad : List ℚ → ℚ × List ℚ)
    (x : List ℚ) (ε : ℚ) :
    (finite_diff_hessian_AD_run grad x ε).st.x = x :=
  hessRun_x grad ε (List.range x.length) ⟨x, x⟩

/-- The first component of the result is f applied to the unchanged vector
of the caller. -/
theorem fdh_fst (f : List ℚ → ℚ) (grad : List ℚ → ℚ × List ℚ)
    (x : List ℚ) (ε : ℚ) (hess0 : List (List ℚ)) :
    (finite_diff_hessian_AD f grad x ε hess0).1 = f x := by
  simp [finite_diff_hessian_AD, finite_diff_hessian_AD_run, hessRun_x]

/-- Claim C4: the scalar fx returned by finite_diff_hessian_AD is the
result of one direct unperturbed evaluation f(x), independent of every
gradient-oracle evaluation (the statement holds for every oracle grad). -/
theorem fdh_value_unperturbed (f : List ℚ → ℚ) (grad : List ℚ → ℚ × List ℚ)
    (x : List ℚ) (ε : ℚ) (hess0 : List (List ℚ)) :
    (finite_diff_hessian_AD f grad x ε hess0).1 = f x := by
  simp [finite_diff_hessian_AD, finite_diff_hessian_AD_run, hessRun_x]

/-- From the synchronized state (x, x), the loop enters every iteration
with the working copy equal to x: the columns are those computed from
state (x, x), the query trace concatenates the per-dimension queries
computed from state (x, x), and the final state is (x, x) again. -/
theorem hessRun_fixed (grad : List ℚ → ℚ × List ℚ) (ε : ℚ) (x : List ℚ)
    (is : List ℕ) (his : ∀ i ∈ is, i < x.length) :
    hessRun grad ε is ⟨x, x⟩ =
      ⟨is.map (fun i => (hessStep grad ε i ⟨x, x⟩).col), ⟨x, x⟩,
       is.flatMap (fun i => (hessStep grad ε i ⟨x, x⟩).queries)⟩ := by
  induction is with
  | nil => rfl
  | cons i is ih =>
    have hi : i < x.length := his i (by simp)
    have ih2 := ih (fun j hj => his j (by simp [hj]))
    simp [hessRun, hessStep_st_fixed grad ε x i hi, ih2]

/-- Both oracle calls of an iteration use only the gradient component of
the oracle result; the value component (dummy_fx_eval) is discarded. -/
theorem hessStep_oracle_congr (grad grad2 : List ℚ → ℚ × List ℚ)
    (h : ∀ p, (grad p).2 = (grad2 p).2) (ε : ℚ) (i : ℕ) (s : EngineState) :
    hessStep grad ε i s = hessStep grad2 ε i s := by
  simp [hessStep, h]

/-- The whole loop is insensitive to the value component of the oracle. -/
theorem hessRun_oracle_congr (grad grad2 : List ℚ → ℚ × List ℚ)
    (h : ∀ p, (grad p).2 = (grad2 p).2) (ε : ℚ) (is : List ℕ) :
    ∀ s : EngineState, hessRun grad ε is s = hessRun grad2 ε is s := by
  induction is with
  | nil => intro s; rfl
  | cons i is ih =>
    intro s
    simp only [hessRun]
    rw [hessStep_oracle_congr grad grad2 h, ih]

/-- Claim C10: the outputs fx and H do not depend on the scalar value
component returned by the gradient oracle: two oracles that agree on the
gradient vectors at every point, while returning arbitrarily different
value components, yield identical results. -/
theorem fdh_ignores_oracle_value (f : List ℚ → ℚ)
    (grad grad2 : List ℚ → ℚ × List ℚ) (x : List ℚ) (ε : ℚ)
    (hess0 : List (List ℚ)) (h : ∀ p, (grad p).2 = (grad2 p).2) :
    finite_diff_hessian_AD f grad x ε hess0 =
      finite_diff_hessian_AD f grad2 x ε hess0 := by
  simp only [finite_diff_hessian_AD, finite_diff_hessian_AD_run]
  rw [hessRun_oracle_congr grad grad2 h]

/-- Concrete oracle for witnesses: value component 37, gradient the point
itself. -/
def oracleA : List ℚ → ℚ × List ℚ := fun p => ((37 : ℚ), p)

/-- Concrete oracle for witnesses: value component 0, gradient the point
itself (same gradients as oracleA, different values). -/
def oracleB : List ℚ → ℚ × List ℚ := fun p => ((0 : ℚ), p)

/-- Concrete function for witnesses. -/
def fDemo : List ℚ → ℚ := fun p => p.getD 0 0

theorem fdh_ignores_oracle_value_witness :
    (∀ p : List ℚ, (oracleA p).2 = (oracleB p).2) ∧
    finite_diff_hessian_AD fDemo oracleA [1, 2] defaultEpsilon [] =
      finite_diff_hessian_AD fDemo oracleB [1, 2] defaultEpsilon [] :=
  ⟨fun _ => rfl,
   fdh_ignores_oracle_value fDemo oracleA oracleB [1, 2] defaultEpsilon []
     (fun _ => rfl)⟩

/-- getD is unchanged by a set at another index. -/
theorem getD_set_ne {α : Type} (l : List α) (i j : ℕ) (v d : α)
    (h : j ≠ i) : (l.set i v).getD j d = l.getD j d := by
  simp [List.getD_eq_getElem?_getD, List.getElem?_set_ne (Ne.symm h)]

/-- From the synchronized state (x, x), the four points handed to the
oracle during dimension i are x perturbed at coordinate i by the offsets
+2e, -2e, +e, -e, each taken from the original x(i). -/
theorem hessStep_queries_fixed (grad : List ℚ → ℚ × List ℚ) (ε : ℚ)
    (x : List ℚ) (i : ℕ) :
    (hessStep grad ε i ⟨x, x⟩).queries =
      [x.set i (x.getD i 0 + 2 * ε), x.set i (x.getD i 0 - 2 * ε),
       x.set i (x.getD i 0 + ε), x.set i (x.getD i 0 - ε)] := by
  simp [hessStep, List.set_set, sub_eq_add_neg, neg_mul]

/-- When the oracle honours the dimension contract, the column computed by
one iteration has the length of the working copy. -/
theorem hessStep_col_length (grad : List ℚ → ℚ × List ℚ) (ε : ℚ) (i : ℕ)
    (s : EngineState) (hGrad : ∀ p, ((grad p).2).length = p.length) :
    (hessStep grad ε i s).col.length = s.xtemp.length := by
  simp [hessStep, hGrad]

/-- Shape of the returned matrix: d columns, each of length d. -/
theorem fdh_cols_shape (f : List ℚ → ℚ) (grad : List ℚ → ℚ × List ℚ)
    (x : List ℚ) (ε : ℚ) (hess0 : List (List ℚ))
    (hGrad : ∀ p, ((grad p).2).length = p.length) :
    ((finite_diff_hessian_AD f grad x ε hess0).2).length = x.length ∧
    ∀ c ∈ (finite_diff_hessian_AD f grad x ε hess0).2,
      c.length = x.length := by
  have hr := hessRun_fixed grad ε x (List.range x.length)
    (fun j hj => List.mem_range.mp hj)
  constructor
  · simp [finite_diff_hessian_AD, finite_diff_hessian_AD_run, hr]
  · intro c hc
    simp only [finite_diff_hessian_AD, finite_diff_hessian_AD_run, hr] at hc
    obtain ⟨i, hmem, rfl⟩ := List.mem_map.mp hc
    exact hessStep_col_length grad ε i ⟨x, x⟩ hGrad

/-- Claim C5: for every input point x of length d, every oracle honouring
the dimension contract, and every prior content of the output matrix, the
matrix produced by finite_diff_hessian_AD has exactly d columns of length
d each (d = 0 gives the empty matrix). -/
theorem fdh_shape (f : List ℚ → ℚ) (grad : List ℚ → ℚ × List ℚ)
    (x : List ℚ) (ε : ℚ) (hess0 : List (List ℚ))
    (hGrad : ∀ p, ((grad p).2).length = p.length) :
    ((finite_diff_hessian_AD f grad x ε hess0).2).length = x.length ∧
    ∀ c ∈ (finite_diff_hessian_AD f grad x ε hess0).2,
      c.length = x.length :=
  fdh_cols_shape f grad x ε hess0 hGrad

theorem fdh_shape_witness :
    (∀ p : List ℚ, ((oracleA p).2).length = p.length) ∧
    (((finite_diff_hessian_AD fDemo oracleA [1, 2] defaultEpsilon []).2).length
        = ([1, 2] : List ℚ).length ∧
      ∀ c ∈ (finite_diff_hessian_AD fDemo oracleA [1, 2] defaultEpsilon []).2,
        c.length = ([1, 2] : List ℚ).length) :=
  ⟨fun _ => rfl,
   fdh_shape fDemo oracleA [1, 2] defaultEpsilon [] (fun _ => rfl)⟩

/-- Claim C7: the engine validates nothing about epsilon: for a
non-positive epsilon it still returns a value of the expected shape with
fx = f(x) (the body has no guard; a zero epsilon merely makes the column
values meaningless, it raises no error). -/
theorem fdh_no_epsilon_validation (f : List ℚ → ℚ)
    (grad : List ℚ → ℚ × List ℚ) (x : List ℚ) (hess0 : List (List ℚ))
    (ε : ℚ) (hε : ε ≤ 0) (hGrad : ∀ p, ((grad p).2).length = p.length) :
    (finite_diff_hessian_AD f grad x ε hess0).1 = f x ∧
    ((finite_diff_hessian_AD f grad x ε hess0).2).length = x.length ∧
    ∀ c ∈ (finite_diff_hessian_AD f grad x ε hess0).2,
      c.length = x.length :=
  ⟨fdh_fst f grad x ε hess0, (fdh_cols_shape f grad x ε hess0 hGrad).1,
   (fdh_cols_shape f grad x ε hess0 hGrad).2⟩

theorem fdh_no_epsilon_validation_witness :
    (0 : ℚ) ≤ 0 ∧ (∀ p : List ℚ, ((oracleA p).2).length = p.length) ∧
    ((finite_diff_hessian_AD fDemo oracleA [1, 2] 0 []).1 = fDemo [1, 2] ∧
      ((finite_diff_hessian_AD fDemo oracleA [1, 2] 0 []).2).length
        = ([1, 2] : List ℚ).length ∧
      ∀ c ∈ (finite_diff_hessian_AD fDemo oracleA [1, 2] 0 []).2,
        c.length = ([1, 2] : List ℚ).length) :=
  ⟨by decide, fun _ => rfl,
   fdh_no_epsilon_validation fDemo oracleA [1, 2] [] 0 (by decide)
     (fun _ => rfl)⟩

/-- Summing the constant 4 over the dimension indices. -/
theorem sum_map_const_four (n : ℕ) :
    ((List.range n).map (fun _ => 4)).sum = 4 * n := by
  induction n with
  | zero => rfl
  | succ n ih =>
    rw [List.range_succ]
    simp [ih]
    ring

/-- Claim C8: one call invokes the gradient oracle exactly four times per
dimension, in dimension order i = 0, ..., d-1 (so 4d calls in total, and
none when d = 0): the query trace is exactly the concatenation, over i,
of the four perturbed points of dimension i. -/
theorem fdh_oracle_call_count (grad : List ℚ → ℚ × List ℚ) (x : List ℚ)
    (ε : ℚ) :
    (finite_diff_hessian_AD_run grad x ε).queries =
      (List.range x.length).flatMap (fun i =>
        [x.set i (x.getD i 0 + 2 * ε), x.set i (x.getD i 0 - 2 * ε),
         x.set i (x.getD i 0 + ε), x.set i (x.getD i 0 - ε)]) ∧
    ((finite_diff_hessian_AD_run grad x ε).queries).length = 4 * x.length := by
  have hr := hessRun_fixed grad ε x (List.range x.length)
    (fun j hj => List.mem_range.mp hj)
  have hq : (finite_diff_hessian_AD_run grad x ε).queries =
      (List.range x.length).flatMap (fun i =>
        [x.set i (x.getD i 0 + 2 * ε), x.set i (x.getD i 0 - 2 * ε),
         x.set i (x.getD i 0 + ε), x.set i (x.getD i 0 - ε)]) := by
    simp only [finite_diff_hessian_AD_run, hr]
    exact List.flatMap_congr (fun i _ => hessStep_queries_fixed grad ε x i)
  refine ⟨hq, ?_⟩
  rw [hq, List.length_flatMap]
  have hlen : (List.length ∘ fun i : ℕ =>
      [x.set i (x.getD i 0 + 2 * ε), x.set i (x.getD i 0 - 2 * ε),
       x.set i (x.getD i 0 + ε), x.set i (x.getD i 0 - ε)]) =
      (fun _ : ℕ => 4) := by
    funext i
    rfl
  rw [hlen, sum_map_const_four]

/-- Claim C3: during dimension i the four points passed to the oracle
differ from the original x only in coordinate i, by exactly +2e, -2e, +e,
-e, and the working point is back to x both on entering dimension i and
after it finishes (perturbations never compound across dimensions). -/
theorem fdh_perturbation_isolation (grad : List ℚ → ℚ × List ℚ)
    (x : List ℚ) (ε : ℚ) (i : ℕ) (hi : i < x.length) :
    (hessRun grad ε (List.range i) ⟨x, x⟩).st = ⟨x, x⟩ ∧
    (hessStep grad ε i ⟨x, x⟩).queries =
      [x.set i (x.getD i 0 + 2 * ε), x.set i (x.getD i 0 - 2 * ε),
       x.set i (x.getD i 0 + ε), x.set i (x.getD i 0 - ε)] ∧
    (∀ q ∈ (hessStep grad ε i ⟨x, x⟩).queries,
      ∀ j : ℕ, j ≠ i → q.getD j 0 = x.getD j 0) ∧
    (hessRun grad ε (List.range (i + 1)) ⟨x, x⟩).st = ⟨x, x⟩ := by
  have h1 := hessRun_fixed grad ε x (List.range i)
    (fun j hj => lt_trans (List.mem_range.mp hj) hi)
  have h2 := hessRun_fixed grad ε x (List.range (i + 1))
    (fun j hj => lt_of_lt_of_le (List.mem_range.mp hj) hi)
  refine ⟨by rw [h1], hessStep_queries_fixed grad ε x i, ?_, by rw [h2]⟩
  intro q hq j hji
  rw [hessStep_queries_fixed grad ε x i] at hq
  simp only [List.mem_cons, List.not_mem_nil, or_false] at hq
  rcases hq with rfl | rfl | rfl | rfl <;>
    exact getD_set_ne x i j _ 0 hji

theorem fdh_perturbation_isolation_witness :
    1 < ([3, 4] : List ℚ).length ∧
    ((hessRun oracleA 1 (List.range 1) ⟨[3, 4], [3, 4]⟩).st =
        ⟨[3, 4], [3, 4]⟩ ∧
      (hessStep oracleA 1 1 ⟨[3, 4], [3, 4]⟩).queries =
        [([3, 4] : List ℚ).set 1 (([3, 4] : List ℚ).getD 1 0 + 2 * 1),
         ([3, 4] : List ℚ).set 1 (([3, 4] : List ℚ).getD 1 0 - 2 * 1),
         ([3, 4] : List ℚ).set 1 (([3, 4] : List ℚ).getD 1 0 + 1),
         ([3, 4] : List ℚ).set 1 (([3, 4] : List ℚ).getD 1 0 - 1)] ∧
      (∀ q ∈ (hessStep oracleA 1 1 ⟨[3, 4], [3, 4]⟩).queries,
        ∀ j : ℕ, j ≠ 1 → q.getD j 0 = ([3, 4] : List ℚ).getD j 0) ∧
      (hessRun oracleA 1 (List.range (1 + 1)) ⟨[3, 4], [3, 4]⟩).st =
        ⟨[3, 4], [3, 4]⟩) :=
  ⟨by decide, fdh_perturbation_isolation oracleA [3, 4] 1 1 (by decide)⟩

/-- The i-th column of the returned matrix is the column computed by
iteration i from the synchronized state (x, x). -/
theorem fdh_col (f : List ℚ → ℚ) (grad : List ℚ → ℚ × List ℚ)
    (x : List ℚ) (ε : ℚ) (hess0 : List (List ℚ)) (i : ℕ)
    (hi : i < x.length) :
    ((finite_diff_hessian_AD f grad x ε hess0).2).getD i [] =
      (hessStep grad ε i ⟨x, x⟩).col := by
  have hr := hessRun_fixed grad ε x (List.range x.length)
    (fun j hj => List.mem_range.mp hj)
  simp only [finite_diff_hessian_AD, finite_diff_hessian_AD_run, hr]
  rw [getD_of_lt _ _ _ (by simpa using hi)]
  simp [hi]

/-- Componentwise value of the column computed by iteration i from the
synchronized state (x, x), with the offsets written exactly as in the
source. -/
theorem hessStep_col_getD (grad : List ℚ → ℚ × List ℚ) (ε : ℚ)
    (x : List ℚ) (i j : ℕ)
    (hGrad : ∀ p, ((grad p).2).length = p.length)
    (hi : i < x.length) (hj : j < x.length) :
    ((hessStep grad ε i ⟨x, x⟩).col).getD j 0 =
      (-(((grad (x.set i (x.getD i 0 + 2 * ε))).2).getD j 0)
        + ((grad (x.set i (x.getD i 0 + (-2) * ε))).2).getD j 0
        + 8 * ((grad (x.set i (x.getD i 0 + ε))).2).getD j 0
        - 8 * ((grad (x.set i (x.getD i 0 - ε))).2).getD j 0) / (12 * ε) := by
  simp only [hessStep, List.set_set]
  rw [getD_of_lt _ j 0 (by simp [hGrad, hj])]
  simp [List.getElem_zipWith, getD_of_lt, hGrad, hj]

/-- Claim C1: for every oracle honouring the dimension contract, point x,
step size, dimension i and component j, the entry (j, i) of the returned
Hessian is (-g1 + g2 + 8 g3 - 8 g4) / (12 e), where g1, g2, g3, g4 are the
gradients returned by the oracle at x with coordinate i offset by +2e,
-2e, +e, -e, each offset taken from the original x(i). -/
theorem fdh_column_stencil (f : List ℚ → ℚ) (grad : List ℚ → ℚ × List ℚ)
    (x : List ℚ) (ε : ℚ) (hess0 : List (List ℚ)) (i j : ℕ)
    (hGrad : ∀ p, ((grad p).2).length = p.length)
    (hi : i < x.length) (hj : j < x.length) :
    (((finite_diff_hessian_AD f grad x ε hess0).2).getD i []).getD j 0 =
      (-(((grad (x.set i (x.getD i 0 + 2 * ε))).2).getD j 0)
        + ((grad (x.set i (x.getD i 0 - 2 * ε))).2).getD j 0
        + 8 * ((grad (x.set i (x.getD i 0 + ε))).2).getD j 0
        - 8 * ((grad (x.set i (x.getD i 0 - ε))).2).getD j 0) / (12 * ε) := by
  rw [fdh_col f grad x ε hess0 i hi,
    hessStep_col_getD grad ε x i j hGrad hi hj,
    show x.getD i 0 + (-2) * ε = x.getD i 0 - 2 * ε from by ring]

theorem fdh_column_stencil_witness :
    (∀ p : List ℚ, ((oracleA p).2).length = p.length) ∧
    0 < ([5, 9] : List ℚ).length ∧ 1 < ([5, 9] : List ℚ).length ∧
    (((finite_diff_hessian_AD fDemo oracleA [5, 9] (1 / 2) []).2).getD 0
        []).getD 1 0 =
      (-(((oracleA (([5, 9] : List ℚ).set 0
            (([5, 9] : List ℚ).getD 0 0 + 2 * (1 / 2)))).2).getD 1 0)
        + ((oracleA (([5, 9] : List ℚ).set 0
            (([5, 9] : List ℚ).getD 0 0 - 2 * (1 / 2)))).2).getD 1 0
        + 8 * ((oracleA (([5, 9] : List ℚ).set 0
            (([5, 9] : List ℚ).getD 0 0 + 1 / 2))).2).getD 1 0
        - 8 * ((oracleA (([5, 9] : List ℚ).set 0
            (([5, 9] : List ℚ).getD 0 0 - 1 / 2))).2).getD 1 0)
        / (12 * (1 / 2)) :=
  ⟨fun _ => rfl, by decide, by decide,
   fdh_column_stencil fDemo oracleA [5, 9] (1 / 2) [] 0 1 (fun _ => rfl)
     (by decide) (by decide)⟩

/-- Entry (i, j) of a matrix given as a list of rows, 0 outside. -/
def entry (A : List (List ℚ)) (i j : ℕ) : ℚ := (A.getD i []).getD j 0

/-- The quadratic form p -> p^T A p. -/
def quadForm (A : List (List ℚ)) (p : List ℚ) : ℚ :=
  ∑ i ∈ Finset.range p.length, ∑ j ∈ Finset.range p.length,
    p.getD i 0 * entry A i j * p.getD j 0

/-- Modelled from the spec: the external Gradient Oracle (the
reverse-mode automatic differentiation engine behind the call
gradient(f, x_temp, dummy_fx_eval, g_auto), whose code is not part of this
snapshot) is, per the spec, exact: for the quadratic form p^T A p it
returns the value together with the exact gradient, whose component k is
the sum over j of (A(k,j) + A(j,k)) p(j). -/
def quadGrad (A : List (List ℚ)) (p : List ℚ) : ℚ × List ℚ :=
  (quadForm A p,
   (List.range p.length).map fun k =>
     ∑ j ∈ Finset.range p.length, (entry A k j + entry A j k) * p.getD j 0)

/-- The exact oracle honours the dimension contract. -/
theorem quadGrad_length (A : List (List ℚ)) (p : List ℚ) :
    ((quadGrad A p).2).length = p.length := by
  simp [quadGrad]

/-- A weighted sum over a vector with one coordinate overwritten. -/
theorem sum_mul_getD_set (c : ℕ → ℚ) (x : List ℚ) (i : ℕ) (v : ℚ)
    (hi : i < x.length) :
    ∑ m ∈ Finset.range x.length, c m * (x.set i v).getD m 0 =
      (∑ m ∈ Finset.range x.length, c m * x.getD m 0)
        + c i * (v - x.getD i 0) := by
  have h1 : ∀ m ∈ Finset.range x.length,
      c m * (x.set i v).getD m 0 =
        c m * x.getD m 0 + (if i = m then c m * (v - x.getD i 0) else 0) := by
    intro m hm
    have hm2 : m < x.length := Finset.mem_range.mp hm
    rw [getD_of_lt _ _ _ (by simpa using hm2), List.getElem_set]
    by_cases h : i = m
    · subst h
      rw [getD_of_lt _ _ _ hm2]
      simp
      ring
    · rw [getD_of_lt _ _ _ hm2]
      simp [h]
  rw [Finset.sum_congr rfl h1, Finset.sum_add_distrib, Finset.sum_ite_eq]
  simp [Finset.mem_range.mpr hi]

/-- Component j of the exact gradient of the quadratic form at x with
coordinate i overwritten by v. -/
theorem quadGrad_getD (A : List (List ℚ)) (x : List ℚ) (i j : ℕ) (v : ℚ)
    (hi : i < x.length) (hj : j < x.length) :
    ((quadGrad A (x.set i v)).2).getD j 0 =
      (∑ m ∈ Finset.range x.length,
        (entry A j m + entry A m j) * x.getD m 0)
        + (entry A j i + entry A i j) * (v - x.getD i 0) := by
  have hlen : (x.set i v).length = x.length := by simp
  simp only [quadGrad]
  rw [getD_of_lt _ _ _ (by simpa using hj)]
  rw [List.getElem_map, List.getElem_range]
  rw [hlen, sum_mul_getD_set (fun m => entry A j m + entry A m j) x i v hi]

/-- Claim C2: for every symmetric matrix A (symmetric on the d x d block
that the quadratic form reads), the exact gradient oracle for
f(p) = p^T A p, every point x and every positive epsilon, the engine
returns fx = f(x) and the matrix 2A exactly: entry (j, i) of the result
is 2 A(i, j).  The four-point stencil is exact on the linear gradient
field of a quadratic. -/
theorem fdh_quadratic_exact (A : List (List ℚ)) (x : List ℚ) (ε : ℚ)
    (hess0 : List (List ℚ))
    (hsym : ∀ i < x.length, ∀ j < x.length, entry A i j = entry A j i)
    (hε : 0 < ε) :
    (finite_diff_hessian_AD (quadForm A) (quadGrad A) x ε hess0).1 =
      quadForm A x ∧
    ∀ i < x.length, ∀ j < x.length,
      (((finite_diff_hessian_AD (quadForm A) (quadGrad A) x ε
          hess0).2).getD i []).getD j 0 = 2 * entry A i j := by
  refine ⟨fdh_fst _ _ _ _ _, ?_⟩
  intro i hi j hj
  rw [fdh_col _ _ _ _ _ i hi,
    hessStep_col_getD (quadGrad A) ε x i j (quadGrad_length A) hi hj,
    quadGrad_getD A x i j _ hi hj, quadGrad_getD A x i j _ hi hj,
    quadGrad_getD A x i j _ hi hj, quadGrad_getD A x i j _ hi hj,
    hsym j hj i hi]
  have hne : ε ≠ 0 := ne_of_gt hε
  field_simp
  ring

/-- Concrete symmetric matrix of the C2 scenario: with A = [[1, 1/2],
[1/2, 1]], the quadratic form p^T A p is x0^2 + x0 x1 + x1^2. -/
def qA : List (List ℚ) := [[1, 1 / 2], [1 / 2, 1]]

theorem fdh_quadratic_exact_witness :
    (∀ i < ([1, 2] : List ℚ).length, ∀ j < ([1, 2] : List ℚ).length,
      entry qA i j = entry qA j i) ∧
    (0 : ℚ) < defaultEpsilon ∧
    ((finite_diff_hessian_AD (quadForm qA) (quadGrad qA) [1, 2]
        defaultEpsilon []).1 = quadForm qA [1, 2] ∧
      ∀ i < ([1, 2] : List ℚ).length, ∀ j < ([1, 2] : List ℚ).length,
        (((finite_diff_hessian_AD (quadForm qA) (quadGrad qA) [1, 2]
            defaultEpsilon []).2).getD i []).getD j 0 = 2 * entry qA i j) ∧
    quadForm qA [1, 2] = 7 ∧
    2 * entry qA 0 0 = 2 ∧ 2 * entry qA 0 1 = 1 ∧
    2 * entry qA 1 0 = 1 ∧ 2 * entry qA 1 1 = 2 := by
  have hsymW : ∀ i < ([1, 2] : List ℚ).length,
      ∀ j < ([1, 2] : List ℚ).length, entry qA i j = entry qA j i := by
    intro i hi j hj
    simp only [List.length_cons, List.length_nil] at hi hj
    interval_cases i <;> interval_cases j <;> rfl
  have hepsW : (0 : ℚ) < defaultEpsilon := by norm_num [defaultEpsilon]
  refine ⟨hsymW, hepsW,
    fdh_quadratic_exact qA [1, 2] defaultEpsilon [] hsymW hepsW,
    ?_, ?_, ?_, ?_, ?_⟩
  · norm_num [quadForm, entry, qA, Finset.sum_range_succ]
  · norm_num [entry, qA]
  · norm_num [entry, qA]
  · norm_num [entry, qA]
  · norm_num [entry, qA]

/-- Control state of the moment-initialization double loop of
gaussian_dlm_log (lines 121-126): either about to run the outer test
i < y.rows(), or about to run the inner test j < y.cols(), or past both
loops.  The matrix C being filled is carried along as a total function on
integer index pairs. -/
inductive DlmLoop where
  | outer (i : ℤ) (C : ℤ → ℤ → ℚ)
  | inner (i : ℤ) (j : ℤ) (C : ℤ → ℤ → ℚ)
  | exited (C : ℤ → ℤ → ℚ)

/-- True after both loops have exited. -/
def DlmLoop.isExited : DlmLoop → Bool
  | .exited _ => true
  | _ => false

/-- One small step of the double loop, exactly as written in the source:
the outer for runs i from 0 while i < y.rows(); the inner for initializes
j = 0, tests j < y.cols(), and its increment position contains i++ instead
of j++, so the body (which writes C(i, j), 1 on the diagonal, 0 off it)
advances i and never advances j; on inner exit the outer increment i++
runs before the outer test. -/
def dlmLoopStep (rows cols : ℤ) : DlmLoop → DlmLoop
  | .outer i C => if i < rows then .inner i 0 C else .exited C
  | .inner i j C =>
      if j < cols then
        .inner (i + 1) j
          (fun a b => if a = i ∧ b = j then (if i = j then 1 else 0)
            else C a b)
      else .outer (i + 1) C
  | .exited C => .exited C

/-- Claim C9: when y has at least one row and at least one column, the
moment-initialization loop reuses the outer index in place of the inner
one, so from the loop entry the machine is forever at the inner test with
j = 0 and i = n after n body executions: the iteration never reaches the
exit state, for any number of steps. -/
theorem gdlm_inner_loop_diverges (rows cols : ℤ) (C0 : ℤ → ℤ → ℚ)
    (hr : 1 ≤ rows) (hc : 1 ≤ cols) :
    ∀ n : ℕ,
      (∃ C, (dlmLoopStep rows cols)^[n + 1] (DlmLoop.outer 0 C0) =
        DlmLoop.inner (n : ℤ) 0 C) ∧
      ((dlmLoopStep rows cols)^[n] (DlmLoop.outer 0 C0)).isExited
        = false := by
  have key : ∀ n : ℕ, ∃ C,
      (dlmLoopStep rows cols)^[n + 1] (DlmLoop.outer 0 C0) =
        DlmLoop.inner (n : ℤ) 0 C := by
    intro n
    induction n with
    | zero =>
      refine ⟨C0, ?_⟩
      rw [Function.iterate_one]
      simp [dlmLoopStep, show (0 : ℤ) < rows from lt_of_lt_of_le one_pos hr]
    | succ n ih =>
      obtain ⟨C, hC⟩ := ih
      refine ⟨fun a b => if a = (n : ℤ) ∧ b = 0
          then (if (n : ℤ) = 0 then 1 else 0) else C a b, ?_⟩
      rw [Function.iterate_succ_apply', hC]
      simp only [dlmLoopStep,
        if_pos (show (0 : ℤ) < cols from lt_of_lt_of_le one_pos hc)]
      push_cast
      rfl
  intro n
  refine ⟨key n, ?_⟩
  cases n with
  | zero => rfl
  | succ n =>
    obtain ⟨C, hC⟩ := key n
    rw [hC]
    rfl

theorem gdlm_inner_loop_diverges_witness :
    (1 : ℤ) ≤ 1 ∧ (1 : ℤ) ≤ 1 ∧
    ∀ n : ℕ,
      (∃ C, (dlmLoopStep 1 1)^[n + 1] (DlmLoop.outer 0 (fun _ _ => 0)) =
        DlmLoop.inner (n : ℤ) 0 C) ∧
      ((dlmLoopStep 1 1)^[n] (DlmLoop.outer 0 (fun _ _ => 0))).isExited
        = false :=
  ⟨le_refl 1, le_refl 1,
   gdlm_inner_loop_diverges 1 1 (fun _ _ => 0) (le_refl 1) (le_refl 1)⟩
